import Mathlib

/-!
Verification development for the `opentagger` repository.

The repository has two source files:
* `src/autotag/autotaggers/rrj/rrj.py` — the RedRocket Joint Tagger (RRJ)
  backend: vocabulary loading, an image preprocessing pipeline, and the
  `autotag` function that thresholds the model's per-class sigmoid scores.
* `src/autotag/api.py` — the FastAPI layer: the WDv3 endpoint (subprocess +
  regex parsing of stdout), the RRJ endpoint, and their error handling.

The pretrained vision-transformer model and its weights are external to the
repository (downloaded from a model hub), so the forward pass is modelled as
an arbitrary vector of per-class sigmoid scores; scores are embedded as `ℚ`
(the properties below only compare scores, never do float-specific
arithmetic).  Fallible Python code is embedded with `Except`, Python dicts as
association lists with insertion-order semantics, and the per-request control
flow of the endpoints as explicit step functions with effect traces.
-/

namespace RRJ

/-- Underscore-to-space processing of a tag name, as in
`name.replace("_", " ")` (rrj.py line 164).  Python's `str.replace` with a
single-character pattern and replacement is exactly a character map. -/
def pyReplaceUnderscore (s : String) : String :=
  String.mk (s.data.map (fun c => if c = '_' then ' ' else c))

/-- Python dict assignment `d[k] = v` on a dict represented as an
insertion-ordered association list: if the key is present its value is
updated in place (original position kept), otherwise the pair is appended. -/
def dictInsert {α : Type} (d : List (String × α)) (k : String) (v : α) :
    List (String × α) :=
  if d.any (fun p => p.1 == k) then
    d.map (fun p => if p.1 = k then (k, v) else p)
  else d ++ [(k, v)]

/-- The dict comprehension
`{name.replace("_", " "): index for name, index in tags_data.items()}`
(rrj.py line 164).  `tags_data` is the decoded JSON object, modelled as the
insertion-ordered list of its entries. -/
def processed_tags_map (tags_data : List (String × ℤ)) : List (String × ℤ) :=
  tags_data.foldl (fun d p => dictInsert d (pyReplaceUnderscore p.1) p.2) []

/-- The value of `model.num_classes`: the model is created with `num_classes=9083`
(rrj.py line 133). -/
def numClasses : ℕ := 9083

/-- One step of the vocabulary-filling loop (rrj.py lines 167-174): an entry
`(name, index)` is written into slot `index` when the index is in range and
the slot is still empty (`if allowed_tags[index]` keeps the first
assignment on an index collision). -/
def allowedStep (allowed : List String) (p : String × ℤ) : List String :=
  if 0 ≤ p.2 ∧ p.2 < (numClasses : ℤ) then
    if allowed.getD p.2.toNat "" ≠ "" then allowed
    else allowed.set p.2.toNat p.1
  else allowed

/-- The `allowed_tags` list built from a processed tags map: start from
`[""] * model.num_classes` and fill it entry by entry (rrj.py lines
166-174). -/
def allowed_tags_of (ptm : List (String × ℤ)) : List String :=
  ptm.foldl allowedStep (List.replicate numClasses "")

/-- The module-level `allowed_tags` value as a function of the decoded
contents of `tagger_tags.json` (rrj.py lines 164-174). -/
def allowed_tags (tags_data : List (String × ℤ)) : List String :=
  allowed_tags_of (processed_tags_map tags_data)

/-- Comparison used by `probits.topk`: descending by score.  The second
component of a pair is the class index. -/
def scoreGE (a b : ℚ × ℕ) : Prop := b.1 ≤ a.1

instance : DecidableRel scoreGE :=
  fun a b => inferInstanceAs (Decidable (b.1 ≤ a.1))

instance : IsTotal (ℚ × ℕ) scoreGE := ⟨fun a b => le_total b.1 a.1⟩

instance : IsTrans (ℚ × ℕ) scoreGE := ⟨fun _ _ _ h1 h2 => le_trans h2 h1⟩

/-- Pair every score of a tensor with its class index, starting at `n`. -/
def enumFrom (n : ℕ) : List ℚ → List (ℚ × ℕ)
  | [] => []
  | x :: xs => (x, n) :: enumFrom (n + 1) xs

/-- The call `values, indices = probits.topk(k)`: the `k` largest scores together
with their class indices, sorted by descending score (rrj.py line 214). -/
def topk (k : ℕ) (xs : List ℚ) : List (ℚ × ℕ) :=
  (List.insertionSort scoreGE (enumFrom 0 xs)).take k

/-- The result-collecting loop of `autotag` (rrj.py lines 219-230): walk the
top-k `(score, index)` pairs in order; a score at or above the threshold with
a nonempty vocabulary name is written into the result dict; an empty name is
skipped (`continue`); the first score below the threshold stops the loop
(`break`, the scores are sorted). -/
def filterLoop (t : ℚ) (allowed : List String) :
    List (ℚ × ℕ) → List (String × ℚ) → List (String × ℚ)
  | [], acc => acc
  | (v, i) :: rest, acc =>
    if t ≤ v then
      if allowed.getD i "" = "" then filterLoop t allowed rest acc
      else filterLoop t allowed rest (dictInsert acc (allowed.getD i "") v)
    else acc

/-- The function `rrj.autotag` (rrj.py lines 183-232), seen from the model's sigmoid
output: the pretrained network is external to the repository, so the forward
pass is abstracted into the `probits` argument (the per-class sigmoid scores
of the uploaded image); `tags_data` is the decoded vocabulary file.  The
function takes the top `min(250, model.num_classes)` scores and keeps those
at or above the threshold, as a dict from tag name to score. -/
def autotag (tags_data : List (String × ℤ)) (probits : List ℚ)
    (threshold : ℚ) : List (String × ℚ) :=
  filterLoop threshold (allowed_tags tags_data)
    (topk (min 250 numClasses) probits) []

example : pyReplaceUnderscore "a_b_c" = "a b c" := by decide

example : autotag [("cat", 0)] [mkRat 3 4] (mkRat 1 2) =
    [("cat", mkRat 3 4)] := by decide

example : autotag [("cat", 0)] [mkRat 3 4] (mkRat 4 5) = [] := by decide

example : autotag [("c_t", 0), ("dog", 1)] [mkRat 3 4, mkRat 4 5] (mkRat 1 2) =
    [("dog", mkRat 4 5), ("c t", mkRat 3 4)] := by decide

/-! Basic facts about `List.getD`, `List.set` and `List.replicate`. -/

theorem getD_replicate_self {α : Type} (a : α) :
    ∀ (n i : ℕ), (List.replicate n a).getD i a = a
  | 0, 0 => rfl
  | 0, _ + 1 => rfl
  | _ + 1, 0 => rfl
  | n + 1, i + 1 => getD_replicate_self a n i

theorem getD_replicate_of_lt {α : Type} (a d : α) :
    ∀ (n i : ℕ), i < n → (List.replicate n a).getD i d = a
  | 0, _, h => absurd h (by omega)
  | _ + 1, 0, _ => rfl
  | n + 1, i + 1, h => getD_replicate_of_lt a d n i (by omega)

theorem getD_set_self {α : Type} (v d : α) :
    ∀ (l : List α) (i : ℕ), i < l.length → (l.set i v).getD i d = v
  | [], _, h => absurd h (by simp)
  | _ :: _, 0, _ => rfl
  | _ :: l, i + 1, h => getD_set_self v d l i (by simpa using h)

theorem getD_set_ne {α : Type} (v d : α) :
    ∀ (l : List α) (i j : ℕ), i ≠ j → (l.set i v).getD j d = l.getD j d
  | [], _, _, _ => rfl
  | _ :: _, 0, 0, h => absurd rfl h
  | _ :: _, 0, _ + 1, _ => rfl
  | _ :: _, _ + 1, 0, _ => rfl
  | _ :: l, i + 1, j + 1, h => getD_set_ne v d l i j (by omega)

theorem set_of_length_le {α : Type} (v : α) :
    ∀ (l : List α) (i : ℕ), l.length ≤ i → l.set i v = l
  | [], _, _ => rfl
  | _ :: _, 0, h => absurd h (by simp)
  | a :: l, i + 1, h => congrArg (a :: ·) (set_of_length_le v l i (by simpa using h))

theorem getD_set_or {α : Type} (v d : α) (l : List α) (i j : ℕ) :
    (l.set i v).getD j d = l.getD j d ∨ (l.set i v).getD j d = v := by
  by_cases hij : i = j
  · subst hij
    by_cases hl : i < l.length
    · exact Or.inr (getD_set_self v d l i hl)
    · exact Or.inl (by rw [set_of_length_le v l i (by omega)])
  · exact Or.inl (getD_set_ne v d l i j hij)

/-! Facts about the Python-dict embedding `dictInsert`. -/

theorem dictInsert_eq_map {α : Type} {d : List (String × α)} {k : String} {v : α}
    (hA : d.any (fun p => p.1 == k) = true) :
    dictInsert d k v = d.map (fun p => if p.1 = k then (k, v) else p) := by
  simp only [dictInsert, hA, if_true]

theorem dictInsert_eq_append {α : Type} {d : List (String × α)} {k : String} {v : α}
    (hA : d.any (fun p => p.1 == k) = false) :
    dictInsert d k v = d ++ [(k, v)] := by
  simp only [dictInsert, hA, Bool.false_eq_true, if_false]

theorem dictInsert_of_forall_ne {α : Type} {d : List (String × α)} {k : String} {v : α}
    (h : ∀ p ∈ d, p.1 ≠ k) : dictInsert d k v = d ++ [(k, v)] := by
  refine dictInsert_eq_append ?_
  rw [List.any_eq_false]
  intro p hp
  simpa using h p hp

theorem mem_dictInsert_val {α : Type} {q : String × α} {d : List (String × α)}
    {k : String} {v : α} (h : q ∈ dictInsert d k v) : q ∈ d ∨ q.2 = v := by
  cases hA : d.any (fun p => p.1 == k) with
  | true =>
    rw [dictInsert_eq_map hA] at h
    obtain ⟨p, hp, hq⟩ := List.mem_map.mp h
    by_cases hk : p.1 = k
    · rw [if_pos hk] at hq
      exact Or.inr (by rw [← hq])
    · rw [if_neg hk] at hq
      exact Or.inl (hq ▸ hp)
  | false =>
    rw [dictInsert_eq_append hA] at h
    rcases List.mem_append.mp h with h' | h'
    · exact Or.inl h'
    · exact Or.inr (by rw [List.mem_singleton.mp h'])

theorem mem_keys_dictInsert {α : Type} {x : String} {d : List (String × α)}
    {k : String} {v : α} (h : x ∈ (dictInsert d k v).map (·.1)) :
    x ∈ d.map (·.1) ∨ x = k := by
  obtain ⟨q, hq, hx⟩ := List.mem_map.mp h
  cases hA : d.any (fun p => p.1 == k) with
  | true =>
    rw [dictInsert_eq_map hA] at hq
    obtain ⟨p, hp, hpq⟩ := List.mem_map.mp hq
    by_cases hk : p.1 = k
    · rw [if_pos hk] at hpq
      exact Or.inr (by rw [← hx, ← hpq])
    · rw [if_neg hk] at hpq
      exact Or.inl (by rw [← hx, ← hpq]; exact List.mem_map_of_mem _ hp)
  | false =>
    rw [dictInsert_eq_append hA] at hq
    rcases List.mem_append.mp hq with h' | h'
    · exact Or.inl (by rw [← hx]; exact List.mem_map_of_mem _ h')
    · exact Or.inr (by rw [← hx, List.mem_singleton.mp h'])

theorem keys_dictInsert_of_mem {α : Type} {x : String} {d : List (String × α)}
    (k : String) (v : α) (h : x ∈ d.map (·.1)) :
    x ∈ (dictInsert d k v).map (·.1) := by
  cases hA : d.any (fun p => p.1 == k) with
  | true =>
    rw [dictInsert_eq_map hA, List.map_map]
    have : ((fun p : String × α => p.1) ∘ fun p => if p.1 = k then (k, v) else p) =
        fun p : String × α => p.1 := by
      funext p
      by_cases hk : p.1 = k <;> simp [hk]
    rwa [this]
  | false =>
    rw [dictInsert_eq_append hA, List.map_append]
    exact List.mem_append_left _ h

theorem key_mem_keys_dictInsert {α : Type} (d : List (String × α)) (k : String) (v : α) :
    k ∈ (dictInsert d k v).map (·.1) := by
  cases hA : d.any (fun p => p.1 == k) with
  | true =>
    obtain ⟨p, hp, hpk⟩ := List.any_eq_true.mp hA
    have : p.1 = k := by simpa using hpk
    exact this ▸ keys_dictInsert_of_mem k v (List.mem_map_of_mem _ hp)
  | false =>
    rw [dictInsert_eq_append hA, List.map_append]
    exact List.mem_append_right _ (by simp)

theorem keys_nodup_dictInsert {α : Type} {d : List (String × α)} {k : String} {v : α}
    (h : (d.map (·.1)).Nodup) : ((dictInsert d k v).map (·.1)).Nodup := by
  cases hA : d.any (fun p => p.1 == k) with
  | true =>
    rw [dictInsert_eq_map hA, List.map_map]
    have : ((fun p : String × α => p.1) ∘ fun p => if p.1 = k then (k, v) else p) =
        fun p : String × α => p.1 := by
      funext p
      by_cases hk : p.1 = k <;> simp [hk]
    rwa [this]
  | false =>
    rw [dictInsert_eq_append hA, List.map_append]
    have hk : k ∉ d.map (·.1) := by
      intro hmem
      obtain ⟨p, hp, hpk⟩ := List.mem_map.mp hmem
      have := List.any_eq_false.mp hA p hp
      simp [hpk] at this
    simp only [List.map_cons, List.map_nil]
    exact List.Nodup.append h (List.nodup_singleton k) (by simpa using hk)

theorem length_dictInsert_le {α : Type} (d : List (String × α)) (k : String) (v : α) :
    (dictInsert d k v).length ≤ d.length + 1 := by
  cases hA : d.any (fun p => p.1 == k) with
  | true => rw [dictInsert_eq_map hA, List.length_map]; omega
  | false => rw [dictInsert_eq_append hA, List.length_append]; simp

/-! Facts about `topk`. -/

theorem enumFrom_map_snd : ∀ (n : ℕ) (xs : List ℚ),
    (enumFrom n xs).map (·.2) = List.range' n xs.length
  | _, [] => rfl
  | n, x :: xs => by
    simp only [enumFrom, List.map_cons, List.length_cons, List.range'_succ]
    rw [enumFrom_map_snd (n + 1) xs]

theorem topk_sorted (k : ℕ) (xs : List ℚ) : List.Sorted scoreGE (topk k xs) :=
  List.Pairwise.sublist (List.take_sublist _ _) (List.sorted_insertionSort scoreGE _)

theorem topk_idx_nodup (k : ℕ) (xs : List ℚ) : ((topk k xs).map (·.2)).Nodup := by
  have hperm : List.Perm ((List.insertionSort scoreGE (enumFrom 0 xs)).map
      (fun p : ℚ × ℕ => p.2)) ((enumFrom 0 xs).map (fun p : ℚ × ℕ => p.2)) :=
    (List.perm_insertionSort scoreGE _).map _
  have hsorted : ((List.insertionSort scoreGE (enumFrom 0 xs)).map (·.2)).Nodup := by
    rw [hperm.nodup_iff, enumFrom_map_snd]
    exact List.nodup_range' _ _
  exact List.Nodup.sublist ((List.take_sublist k _).map _) hsorted

/-! Facts about the result-collecting loop `filterLoop`. -/

theorem filterLoop_score_ge (t : ℚ) (allowed : List String) :
    ∀ (pairs : List (ℚ × ℕ)) (acc : List (String × ℚ)),
      (∀ p ∈ acc, t ≤ p.2) → ∀ q ∈ filterLoop t allowed pairs acc, t ≤ q.2 := by
  intro pairs
  induction pairs with
  | nil => intro acc hacc q hq; exact hacc q hq
  | cons hd rest ih =>
    obtain ⟨v, i⟩ := hd
    intro acc hacc q hq
    simp only [filterLoop] at hq
    by_cases hv : t ≤ v
    · rw [if_pos hv] at hq
      by_cases hname : allowed.getD i "" = ""
      · rw [if_pos hname] at hq
        exact ih acc hacc q hq
      · rw [if_neg hname] at hq
        refine ih _ ?_ q hq
        intro p hp
        rcases mem_dictInsert_val hp with h' | h'
        · exact hacc p h'
        · rw [h']; exact hv
    · rw [if_neg hv] at hq
      exact hacc q hq

theorem filterLoop_keys_mono (t : ℚ) (allowed : List String) :
    ∀ (pairs : List (ℚ × ℕ)) (acc : List (String × ℚ)) (k : String),
      k ∈ acc.map (·.1) → k ∈ (filterLoop t allowed pairs acc).map (·.1) := by
  intro pairs
  induction pairs with
  | nil => intro acc k hk; exact hk
  | cons hd rest ih =>
    obtain ⟨v, i⟩ := hd
    intro acc k hk
    simp only [filterLoop]
    by_cases hv : t ≤ v
    · rw [if_pos hv]
      by_cases hname : allowed.getD i "" = ""
      · rw [if_pos hname]
        exact ih acc k hk
      · rw [if_neg hname]
        exact ih _ k (keys_dictInsert_of_mem _ _ hk)
    · rw [if_neg hv]
      exact hk

theorem filterLoop_key_origin (t : ℚ) (allowed : List String) :
    ∀ (pairs : List (ℚ × ℕ)) (acc : List (String × ℚ)) (q : String × ℚ),
      q ∈ filterLoop t allowed pairs acc →
      q.1 ∈ acc.map (·.1) ∨ ∃ i : ℕ, allowed.getD i "" ≠ "" ∧ q.1 = allowed.getD i "" := by
  intro pairs
  induction pairs with
  | nil => intro acc q hq; exact Or.inl (List.mem_map_of_mem _ hq)
  | cons hd rest ih =>
    obtain ⟨v, i⟩ := hd
    intro acc q hq
    simp only [filterLoop] at hq
    by_cases hv : t ≤ v
    · rw [if_pos hv] at hq
      by_cases hname : allowed.getD i "" = ""
      · rw [if_pos hname] at hq
        exact ih acc q hq
      · rw [if_neg hname] at hq
        rcases ih _ q hq with h' | h'
        · rcases mem_keys_dictInsert h' with h'' | h''
          · exact Or.inl h''
          · exact Or.inr ⟨i, hname, h''⟩
        · exact Or.inr h'
    · rw [if_neg hv] at hq
      exact Or.inl (List.mem_map_of_mem _ hq)

theorem filterLoop_length_le (t : ℚ) (allowed : List String) :
    ∀ (pairs : List (ℚ × ℕ)) (acc : List (String × ℚ)),
      (filterLoop t allowed pairs acc).length ≤ acc.length + pairs.length := by
  intro pairs
  induction pairs with
  | nil => intro acc; simp [filterLoop]
  | cons hd rest ih =>
    obtain ⟨v, i⟩ := hd
    intro acc
    simp only [filterLoop]
    by_cases hv : t ≤ v
    · rw [if_pos hv]
      by_cases hname : allowed.getD i "" = ""
      · rw [if_pos hname]
        have := ih acc
        simp only [List.length_cons]
        omega
      · rw [if_neg hname]
        have h1 := ih (dictInsert acc (allowed.getD i "") v)
        have h2 := length_dictInsert_le acc (allowed.getD i "") v
        simp only [List.length_cons]
        omega
    · rw [if_neg hv]
      simp only [List.length_cons]
      omega

theorem filterLoop_complete (t : ℚ) (allowed : List String) :
    ∀ (pairs : List (ℚ × ℕ)) (acc : List (String × ℚ)) (v : ℚ) (i : ℕ),
      List.Sorted scoreGE pairs → (v, i) ∈ pairs → t ≤ v →
      allowed.getD i "" ≠ "" →
      allowed.getD i "" ∈ (filterLoop t allowed pairs acc).map (·.1) := by
  intro pairs
  induction pairs with
  | nil => intro acc v i _ hmem; exact absurd hmem (List.not_mem_nil _)
  | cons hd rest ih =>
    obtain ⟨v0, i0⟩ := hd
    intro acc v i hsorted hmem hv hname
    rcases List.mem_cons.mp hmem with heq | hrest
    · -- the sought pair is the head of the remaining top-k pairs
      obtain ⟨hv0, hi0⟩ : v0 = v ∧ i0 = i := by
        constructor <;> (injection heq with h1 h2; first | exact h1.symm | exact h2.symm)
      subst hv0; subst hi0
      simp only [filterLoop, if_pos hv, if_neg hname]
      exact filterLoop_keys_mono t allowed rest _ _ (key_mem_keys_dictInsert _ _ _)
    · -- the sought pair sits further down; the head cannot trip the break
      have hrel : scoreGE (v0, i0) (v, i) :=
        (List.pairwise_cons.mp hsorted).1 (v, i) hrest
      have hv0 : t ≤ v0 := le_trans hv hrel
      simp only [filterLoop, if_pos hv0]
      by_cases hname0 : allowed.getD i0 "" = ""
      · rw [if_pos hname0]
        exact ih acc v i hsorted.of_cons hrest hv hname
      · rw [if_neg hname0]
        exact ih _ v i hsorted.of_cons hrest hv hname

theorem filterLoop_sorted (t : ℚ) (allowed : List String)
    (hinj : ∀ i j : ℕ, allowed.getD i "" ≠ "" →
      allowed.getD i "" = allowed.getD j "" → i = j) :
    ∀ (pairs : List (ℚ × ℕ)) (acc : List (String × ℚ)),
      List.Sorted scoreGE pairs →
      (pairs.map (·.2)).Nodup →
      acc.Pairwise (fun p q => q.2 ≤ p.2) →
      (∀ p ∈ acc, ∀ q ∈ pairs, q.1 ≤ p.2) →
      (∀ p ∈ acc, ∀ q ∈ pairs, allowed.getD q.2 "" ≠ "" → p.1 ≠ allowed.getD q.2 "") →
      (filterLoop t allowed pairs acc).Pairwise (fun p q => q.2 ≤ p.2) := by
  intro pairs
  induction pairs with
  | nil => intro acc _ _ hacc _ _; exact hacc
  | cons hd rest ih =>
    obtain ⟨v, i⟩ := hd
    intro acc hsorted hnodup hacc hge hfresh
    simp only [filterLoop]
    by_cases hv : t ≤ v
    · rw [if_pos hv]
      by_cases hname : allowed.getD i "" = ""
      · rw [if_pos hname]
        refine ih acc hsorted.of_cons (by simpa using hnodup.of_cons) hacc ?_ ?_
        · intro p hp q hq
          exact hge p hp q (List.mem_cons_of_mem _ hq)
        · intro p hp q hq
          exact hfresh p hp q (List.mem_cons_of_mem _ hq)
      · rw [if_neg hname]
        -- the name is fresh in the accumulator, so the dict update appends
        have hfresh0 : ∀ p ∈ acc, p.1 ≠ allowed.getD i "" := fun p hp =>
          hfresh p hp (v, i) (List.mem_cons_self _ _) hname
        rw [dictInsert_of_forall_ne hfresh0]
        refine ih _ hsorted.of_cons (by simpa using hnodup.of_cons) ?_ ?_ ?_
        · -- the appended entry keeps the accumulator sorted
          rw [List.pairwise_append]
          refine ⟨hacc, List.pairwise_singleton _ _, ?_⟩
          intro p hp q hq
          rw [List.mem_singleton.mp hq]
          exact hge p hp (v, i) (List.mem_cons_self _ _)
        · intro p hp q hq
          rcases List.mem_append.mp hp with h' | h'
          · exact hge p h' q (List.mem_cons_of_mem _ hq)
          · rw [List.mem_singleton.mp h']
            exact (List.pairwise_cons.mp hsorted).1 q hq
        · intro p hp q hq hqname
          rcases List.mem_append.mp hp with h' | h'
          · exact hfresh p h' q (List.mem_cons_of_mem _ hq) hqname
          · rw [List.mem_singleton.mp h']
            intro hcontra
            have hiq : i = q.2 := hinj i q.2 hname (by rw [← hcontra])
            have : i ∉ rest.map (·.2) := by
              have := hnodup
              simp only [List.map_cons] at this
              exact (List.nodup_cons.mp this).1
            exact this (hiq ▸ List.mem_map_of_mem _ hq)
    · rw [if_neg hv]
      exact hacc

/-! Facts about the processed tags map and the `allowed_tags` construction. -/

theorem pyReplaceUnderscore_no_underscore (s : String) :
    '_' ∉ (pyReplaceUnderscore s).data := by
  intro h
  simp only [pyReplaceUnderscore] at h
  obtain ⟨c, _, hcf⟩ := List.mem_map.mp h
  by_cases hc : c = '_'
  · rw [if_pos hc] at hcf
    exact absurd hcf (by decide)
  · rw [if_neg hc] at hcf
    exact hc hcf

theorem ptm_fold_keys_nodup :
    ∀ (td : List (String × ℤ)) (d : List (String × ℤ)),
      (d.map (·.1)).Nodup →
      (((td.foldl (fun d p => dictInsert d (pyReplaceUnderscore p.1) p.2) d)).map
        (·.1)).Nodup := by
  intro td
  induction td with
  | nil => intro d h; exact h
  | cons p rest ih =>
    intro d h
    exact ih _ (keys_nodup_dictInsert h)

theorem processed_tags_map_keys_nodup (td : List (String × ℤ)) :
    ((processed_tags_map td).map (·.1)).Nodup :=
  ptm_fold_keys_nodup td [] (by simp)

theorem ptm_fold_keys_pred (P : String → Prop) :
    ∀ (td : List (String × ℤ)) (d : List (String × ℤ)),
      (∀ k ∈ d.map (·.1), P k) → (∀ s, P (pyReplaceUnderscore s)) →
      ∀ k ∈ ((td.foldl (fun d p => dictInsert d (pyReplaceUnderscore p.1) p.2) d)).map
        (·.1), P k := by
  intro td
  induction td with
  | nil => intro d h _ k hk; exact h k hk
  | cons p rest ih =>
    intro d h hrep k hk
    refine ih _ ?_ hrep k hk
    intro k' hk'
    rcases mem_keys_dictInsert hk' with h' | h'
    · exact h k' h'
    · exact h' ▸ hrep p.1

theorem processed_tags_map_keys_pred (P : String → Prop) (td : List (String × ℤ))
    (hrep : ∀ s, P (pyReplaceUnderscore s)) :
    ∀ k ∈ (processed_tags_map td).map (·.1), P k :=
  ptm_fold_keys_pred P td [] (by simp) hrep

theorem allowedStep_cases (A : List String) (p : String × ℤ) :
    allowedStep A p = A ∨
    (allowedStep A p = A.set p.2.toNat p.1 ∧ 0 ≤ p.2 ∧ p.2 < (numClasses : ℤ) ∧
      A.getD p.2.toNat "" = "") := by
  by_cases hrange : 0 ≤ p.2 ∧ p.2 < (numClasses : ℤ)
  · by_cases hslot : A.getD p.2.toNat "" = ""
    · refine Or.inr ⟨?_, hrange.1, hrange.2, hslot⟩
      rw [allowedStep, if_pos hrange, if_neg (not_not_intro hslot)]
    · exact Or.inl (by rw [allowedStep, if_pos hrange, if_pos hslot])
  · exact Or.inl (by rw [allowedStep, if_neg hrange])

theorem allowed_fold_length :
    ∀ (ptm : List (String × ℤ)) (A : List String),
      (ptm.foldl allowedStep A).length = A.length := by
  intro ptm
  induction ptm with
  | nil => intro A; rfl
  | cons p rest ih =>
    intro A
    rcases allowedStep_cases A p with h | ⟨h, _⟩ <;>
      simp only [List.foldl_cons, h, ih, List.length_set]

theorem allowed_fold_pred (P : String → Prop) :
    ∀ (ptm : List (String × ℤ)) (A : List String),
      (∀ p ∈ ptm, P p.1) → (∀ i : ℕ, P (A.getD i "")) →
      ∀ i : ℕ, P ((ptm.foldl allowedStep A).getD i "") := by
  intro ptm
  induction ptm with
  | nil => intro A _ hA i; exact hA i
  | cons p rest ih =>
    intro A hnames hA i
    simp only [List.foldl_cons]
    refine ih _ (fun q hq => hnames q (List.mem_cons_of_mem _ hq)) ?_ i
    intro j
    rcases allowedStep_cases A p with h | ⟨h, _⟩
    · rw [h]; exact hA j
    · rw [h]
      rcases getD_set_or p.1 "" A p.2.toNat j with h' | h'
      · rw [h']; exact hA j
      · rw [h']; exact hnames p (List.mem_cons_self _ _)

theorem allowed_fold_inj :
    ∀ (ptm : List (String × ℤ)) (A : List String),
      ((ptm.map (·.1)).Nodup) →
      (∀ i j : ℕ, A.getD i "" ≠ "" → A.getD i "" = A.getD j "" → i = j) →
      (∀ i : ℕ, A.getD i "" ≠ "" → A.getD i "" ∉ ptm.map (·.1)) →
      ∀ i j : ℕ, (ptm.foldl allowedStep A).getD i "" ≠ "" →
        (ptm.foldl allowedStep A).getD i "" = (ptm.foldl allowedStep A).getD j "" →
        i = j := by
  intro ptm
  induction ptm with
  | nil => intro A _ hinj _ i j hi hij; exact hinj i j hi hij
  | cons p rest ih =>
    intro A hnodup hinj havoid
    simp only [List.foldl_cons]
    have hnotrest : p.1 ∉ rest.map (·.1) := by
      have := hnodup
      simp only [List.map_cons] at this
      exact (List.nodup_cons.mp this).1
    rcases allowedStep_cases A p with h | ⟨h, _, _, hslot⟩
    · rw [h]
      refine ih A (by simpa using hnodup.of_cons) hinj ?_
      intro i hi
      have := havoid i hi
      simp only [List.map_cons, List.mem_cons] at this
      exact fun hmem => this (Or.inr hmem)
    · rw [h]
      have havoidA : ∀ m : ℕ, A.getD m "" ≠ "" → A.getD m "" ≠ p.1 := by
        intro m hm heq
        have := havoid m hm
        simp only [List.map_cons, List.mem_cons] at this
        exact this (Or.inl heq)
      refine ih (A.set p.2.toNat p.1) (by simpa using hnodup.of_cons) ?_ ?_
      · -- injectivity on nonempty entries is preserved by the assignment
        intro i j hi hij
        by_cases hiN : i = p.2.toNat
        · by_cases hjN : j = i
          · exact hjN.symm
          · exfalso
            have hAj : (A.set p.2.toNat p.1).getD j "" = A.getD j "" :=
              getD_set_ne _ _ A p.2.toNat j (fun hc => hjN (hc.symm.trans hiN.symm))
            rcases getD_set_or p.1 "" A p.2.toNat i with h' | h'
            · rw [h', hiN] at hi
              exact hi hslot
            · rw [h'] at hi hij
              rw [hAj] at hij
              exact havoidA j (by rw [← hij]; exact hi) (by rw [← hij])
        · have hAi : (A.set p.2.toNat p.1).getD i "" = A.getD i "" :=
            getD_set_ne _ _ A p.2.toNat i (fun hc => hiN hc.symm)
          rw [hAi] at hi hij
          by_cases hjN : j = p.2.toNat
          · exfalso
            rcases getD_set_or p.1 "" A p.2.toNat j with h' | h'
            · rw [h', hjN, hslot] at hij
              exact hi hij
            · rw [h'] at hij
              exact havoidA i hi hij
          · have hAj : (A.set p.2.toNat p.1).getD j "" = A.getD j "" :=
              getD_set_ne _ _ A p.2.toNat j (fun hc => hjN hc.symm)
            rw [hAj] at hij
            exact hinj i j hi hij
      · -- nonempty entries after the assignment avoid the remaining keys
        intro m hm
        rcases getD_set_or p.1 "" A p.2.toNat m with hA1 | hA1
        · rw [hA1] at hm ⊢
          have := havoid m hm
          simp only [List.map_cons, List.mem_cons] at this
          exact fun hmem => this (Or.inr hmem)
        · rw [hA1]
          exact hnotrest

theorem allowed_fold_frame :
    ∀ (ptm : List (String × ℤ)) (A : List String) (m : ℕ),
      (∀ p ∈ ptm, (0 ≤ p.2 ∧ p.2 < (numClasses : ℤ)) → p.2.toNat ≠ m) →
      (ptm.foldl allowedStep A).getD m "" = A.getD m "" := by
  intro ptm
  induction ptm with
  | nil => intro A m _; rfl
  | cons p rest ih =>
    intro A m hm
    simp only [List.foldl_cons]
    rw [ih _ m (fun q hq => hm q (List.mem_cons_of_mem _ hq))]
    rcases allowedStep_cases A p with h | ⟨h, h0, h1, _⟩
    · rw [h]
    · rw [h]
      exact getD_set_ne _ _ A _ m (hm p (List.mem_cons_self _ _) ⟨h0, h1⟩)

theorem allowed_fold_assigned :
    ∀ (ptm : List (String × ℤ)) (A : List String),
      ((ptm.map (·.2)).Nodup) →
      (∀ p ∈ ptm, 0 ≤ p.2 ∧ p.2 < (numClasses : ℤ)) →
      (∀ p ∈ ptm, A.getD p.2.toNat "" = "") →
      A.length = numClasses →
      ∀ p ∈ ptm, (ptm.foldl allowedStep A).getD p.2.toNat "" = p.1 := by
  intro ptm
  induction ptm with
  | nil => intro A _ _ _ _ p hp; exact absurd hp (List.not_mem_nil _)
  | cons q rest ih =>
    intro A hnodup hrange hempty hlen p hp
    have hqrange := hrange q (List.mem_cons_self _ _)
    have hqidx : q.2 ∉ rest.map (·.2) := by
      have := hnodup
      simp only [List.map_cons] at this
      exact (List.nodup_cons.mp this).1
    have hstep : allowedStep A q = A.set q.2.toNat q.1 := by
      rw [allowedStep, if_pos hqrange,
        if_neg (not_not_intro (hempty q (List.mem_cons_self _ _)))]
    have htoNat_ne : ∀ r ∈ rest, r.2.toNat ≠ q.2.toNat := by
      intro r hr hc
      have hr_range := hrange r (List.mem_cons_of_mem _ hr)
      have : r.2 = q.2 := by omega
      exact hqidx (this ▸ List.mem_map_of_mem _ hr)
    simp only [List.foldl_cons, hstep]
    rcases List.mem_cons.mp hp with heq | hrest
    · -- the entry processed first keeps its slot untouched afterwards
      rw [heq]
      rw [allowed_fold_frame rest _ q.2.toNat (fun r hr _ => htoNat_ne r hr)]
      refine getD_set_self _ _ _ _ ?_
      rw [hlen]
      omega
    · refine ih (A.set q.2.toNat q.1) (by simpa using hnodup.of_cons)
        (fun r hr => hrange r (List.mem_cons_of_mem _ hr)) ?_
        (by rw [List.length_set, hlen]) p hrest
      intro r hr
      rw [getD_set_ne _ _ A _ _ (fun hc => htoNat_ne r hr hc.symm)]
      exact hempty r (List.mem_cons_of_mem _ hr)

theorem ptm_eq_map :
    ∀ (td : List (String × ℤ)) (d : List (String × ℤ)),
      ((d.map (·.1)) ++ td.map (fun p => pyReplaceUnderscore p.1)).Nodup →
      td.foldl (fun d p => dictInsert d (pyReplaceUnderscore p.1) p.2) d =
        d ++ td.map (fun p => (pyReplaceUnderscore p.1, p.2)) := by
  intro td
  induction td with
  | nil => intro d _; simp
  | cons p rest ih =>
    intro d h
    have hfresh : ∀ q ∈ d, q.1 ≠ pyReplaceUnderscore p.1 := by
      intro q hq hc
      have hdisj := List.disjoint_of_nodup_append h
      have h1 : pyReplaceUnderscore p.1 ∈ d.map (·.1) := by
        rw [← hc]
        exact List.mem_map_of_mem _ hq
      have h2 : pyReplaceUnderscore p.1 ∈
          (p :: rest).map (fun p => pyReplaceUnderscore p.1) := by
        simp
      exact hdisj h1 h2
    simp only [List.foldl_cons, dictInsert_of_forall_ne hfresh]
    rw [ih (d ++ [(pyReplaceUnderscore p.1, p.2)]) ?_]
    · simp
    · simp only [List.map_append, List.map_cons] at h ⊢
      simpa [List.append_assoc] using h

theorem processed_tags_map_eq (td : List (String × ℤ))
    (h : (td.map (fun p => pyReplaceUnderscore p.1)).Nodup) :
    processed_tags_map td = td.map (fun p => (pyReplaceUnderscore p.1, p.2)) :=
  ptm_eq_map td [] (by simpa using h)

/-- Distinct nonempty entries: the index-to-name assignment built by the
module-load loop is injective on indices carrying a nonempty name, for every
possible content of the vocabulary file. -/
theorem allowed_tags_inj (td : List (String × ℤ)) :
    ∀ i j : ℕ, (allowed_tags td).getD i "" ≠ "" →
      (allowed_tags td).getD i "" = (allowed_tags td).getD j "" → i = j := by
  refine allowed_fold_inj (processed_tags_map td) (List.replicate numClasses "")
    (processed_tags_map_keys_nodup td) ?_ ?_
  · intro i j hi
    rw [getD_replicate_self] at hi
    exact absurd rfl hi
  · intro i hi
    rw [getD_replicate_self] at hi
    exact absurd rfl hi

/-- Every entry of `allowed_tags` satisfies any predicate that holds of the
empty string and of every processed (underscore-free) name. -/
theorem allowed_tags_pred (P : String → Prop) (td : List (String × ℤ))
    (hrep : ∀ s, P (pyReplaceUnderscore s)) (hempty : P "") :
    ∀ i : ℕ, P ((allowed_tags td).getD i "") := by
  refine allowed_fold_pred P (processed_tags_map td) (List.replicate numClasses "")
    ?_ ?_
  · intro p hp
    exact processed_tags_map_keys_pred P td hrep p.1 (List.mem_map_of_mem _ hp)
  · intro i
    rw [getD_replicate_self]
    exact hempty

end RRJ

namespace RRJ

/-! Machinery to evaluate `autotag` symbolically on a full-size
(9083-class) score vector, used to exercise the 250-entry top-k cut-off. -/

theorem mem_enumFrom_replicate (c : ℚ) :
    ∀ (m n : ℕ) (q : ℚ × ℕ), q ∈ enumFrom n (List.replicate m c) → q.1 = c := by
  intro m
  induction m with
  | zero => intro n q hq; exact absurd hq (List.not_mem_nil _)
  | succ m ih =>
    intro n q hq
    simp only [List.replicate, enumFrom] at hq
    rcases List.mem_cons.mp hq with h | h
    · rw [h]
    · exact ih (n + 1) q h

theorem sorted_enumFrom_replicate (c : ℚ) :
    ∀ (m n : ℕ), List.Sorted scoreGE (enumFrom n (List.replicate m c)) := by
  intro m
  induction m with
  | zero => intro n; exact List.sorted_nil
  | succ m ih =>
    intro n
    simp only [List.replicate, enumFrom]
    refine List.Pairwise.cons ?_ (ih (n + 1))
    intro q hq
    show q.1 ≤ c
    rw [mem_enumFrom_replicate c m (n + 1) q hq]

theorem enumFrom_take :
    ∀ (xs : List ℚ) (k n : ℕ), (enumFrom n xs).take k = enumFrom n (xs.take k)
  | [], k, n => by cases k <;> rfl
  | x :: xs, 0, n => rfl
  | x :: xs, k + 1, n => by
    simp only [enumFrom, List.take_succ_cons]
    exact congrArg _ (enumFrom_take xs k (n + 1))

theorem take_replicate_min (a : ℚ) :
    ∀ (k m : ℕ), (List.replicate m a).take k = List.replicate (min k m) a
  | 0, m => by simp
  | k + 1, 0 => by simp
  | k + 1, m + 1 => by
    simp only [List.replicate, List.take_succ_cons]
    rw [take_replicate_min a k m, Nat.succ_min_succ]
    rfl

theorem topk_replicate_ones :
    topk (min 250 numClasses) (List.replicate 9083 (1 : ℚ)) =
      enumFrom 0 (List.replicate 250 (1 : ℚ)) := by
  rw [topk, (sorted_enumFrom_replicate 1 9083 0).insertionSort_eq, enumFrom_take,
    take_replicate_min]
  have h : min (min 250 numClasses) 9083 = 250 := by decide
  rw [h]

theorem filterLoop_skip_all (t : ℚ) (allowed : List String) (ht : t ≤ 1) :
    ∀ (m n : ℕ) (acc : List (String × ℚ)),
      (∀ i : ℕ, n ≤ i → i < n + m → allowed.getD i "" = "") →
      filterLoop t allowed (enumFrom n (List.replicate m (1 : ℚ))) acc = acc := by
  intro m
  induction m with
  | zero => intro n acc _; rfl
  | succ m ih =>
    intro n acc hempty
    simp only [List.replicate, enumFrom, filterLoop, if_pos ht,
      if_pos (hempty n (le_refl n) (by omega))]
    exact ih (n + 1) acc (fun i h0 h1 => hempty i (by omega) (by omega))

theorem allowed_tags_single :
    allowed_tags [("a", (9082 : ℤ))] =
      (List.replicate numClasses "").set 9082 "a" := by
  have h1 : processed_tags_map [("a", (9082 : ℤ))] = [("a", (9082 : ℤ))] := by decide
  rw [allowed_tags, h1, allowed_tags_of, List.foldl_cons, List.foldl_nil,
    allowedStep, if_pos (show (0 : ℤ) ≤ 9082 ∧ (9082 : ℤ) < (numClasses : ℤ) by decide),
    if_neg (not_not_intro (getD_replicate_self "" numClasses ((9082 : ℤ).toNat)))]
  rfl

theorem autotag_single_empty :
    autotag [("a", (9082 : ℤ))] (List.replicate 9083 (1 : ℚ)) (mkRat 1 2) = [] := by
  rw [autotag, allowed_tags_single, topk_replicate_ones]
  refine filterLoop_skip_all (mkRat 1 2) _ (by decide) 250 0 [] ?_
  intro i _ hi
  rw [getD_set_ne _ _ _ 9082 i (by omega), getD_replicate_self]

end RRJ

/-- C2 counterexample: it is not the case that every class index whose
sigmoid probability is above the threshold has its vocabulary tag name
included in the result.  With the full 9083-class vector that assigns score
1 to every class, threshold 1/2, and a vocabulary naming class 9082 `"a"`,
the class 9082 has score 1 > 1/2 and a nonempty vocabulary name, yet the
result is empty: only the top `min(250, num_classes)` classes are ever
considered (rrj.py line 213). -/
theorem autotag_full_completeness_cex :
    ¬ (∀ (tags_data : List (String × ℤ)) (probits : List ℚ) (t : ℚ),
        probits.length = RRJ.numClasses → 0 ≤ t → t ≤ 1 →
        ∀ i : ℕ, i < RRJ.numClasses → t < probits.getD i 0 →
          (RRJ.allowed_tags tags_data).getD i "" ≠ "" →
          (RRJ.allowed_tags tags_data).getD i "" ∈
            (RRJ.autotag tags_data probits t).map (·.1)) := by
  intro hclaim
  have h := hclaim [("a", (9082 : ℤ))] (List.replicate 9083 (1 : ℚ)) (mkRat 1 2)
    (by rw [List.length_replicate]; rfl) (by decide) (by decide) 9082 (by decide)
    (by rw [RRJ.getD_replicate_of_lt (1 : ℚ) 0 9083 9082 (by omega)]; decide)
    (by
      rw [RRJ.allowed_tags_single,
        RRJ.getD_set_self "a" "" _ 9082 (by rw [List.length_replicate]; decide)]
      decide)
  rw [RRJ.autotag_single_empty] at h
  simp at h

/-- C1: for every image (modelled as an arbitrary vector of per-class sigmoid
scores, the pretrained network being external to the repository) and every
threshold `t` in `[0, 1]`, every `(tag, score)` pair in the dictionary
returned by `rrj.autotag(image, threshold=t)` has `score ≥ t`, and the
dictionary's entries are ordered by descending score. -/
theorem autotag_threshold_and_descending (tags_data : List (String × ℤ))
    (probits : List ℚ) (t : ℚ) (h0 : 0 ≤ t) (h1 : t ≤ 1) :
    (∀ p ∈ RRJ.autotag tags_data probits t, t ≤ p.2) ∧
    (RRJ.autotag tags_data probits t).Pairwise (fun p q => q.2 ≤ p.2) := by
  constructor
  · exact RRJ.filterLoop_score_ge t (RRJ.allowed_tags tags_data)
      (RRJ.topk (min 250 RRJ.numClasses) probits) [] (by simp)
  · exact RRJ.filterLoop_sorted t (RRJ.allowed_tags tags_data)
      (RRJ.allowed_tags_inj tags_data) (RRJ.topk (min 250 RRJ.numClasses) probits) []
      (RRJ.topk_sorted _ _) (RRJ.topk_idx_nodup _ _) List.Pairwise.nil
      (by simp) (by simp)

theorem autotag_threshold_and_descending_witness :
    (0 : ℚ) ≤ mkRat 1 2 ∧ mkRat 1 2 ≤ 1 ∧
    mkRat 1 2 ≤ (("cat", mkRat 3 4) : String × ℚ).2 :=
  ⟨by decide, by decide,
    (autotag_threshold_and_descending [("cat", 0)] [mkRat 3 4] (mkRat 1 2)
      (by decide) (by decide)).1 ("cat", mkRat 3 4) (by decide)⟩

/-- C2 (amended): completeness of thresholding holds over the top
`min(250, num_classes)` classes by score, not over the full class
vocabulary: every `(score, index)` pair among the top-k whose score is at or
above the threshold and whose vocabulary tag name is nonempty has its tag
name included in the result returned by `rrj.autotag`. -/
theorem autotag_topk_complete (tags_data : List (String × ℤ)) (probits : List ℚ)
    (t v : ℚ) (i : ℕ)
    (hmem : (v, i) ∈ RRJ.topk (min 250 RRJ.numClasses) probits)
    (hv : t ≤ v)
    (hname : (RRJ.allowed_tags tags_data).getD i "" ≠ "") :
    (RRJ.allowed_tags tags_data).getD i "" ∈
      (RRJ.autotag tags_data probits t).map (·.1) :=
  RRJ.filterLoop_complete t (RRJ.allowed_tags tags_data)
    (RRJ.topk (min 250 RRJ.numClasses) probits) [] v i
    (RRJ.topk_sorted _ _) hmem hv hname

theorem autotag_topk_complete_witness :
    ((mkRat 3 4, 0) ∈ RRJ.topk (min 250 RRJ.numClasses) [mkRat 3 4]) ∧
    (mkRat 1 2 ≤ mkRat 3 4) ∧
    ((RRJ.allowed_tags [("cat", 0)]).getD 0 "" ≠ "") ∧
    ((RRJ.allowed_tags [("cat", 0)]).getD 0 "" ∈
      (RRJ.autotag [("cat", 0)] [mkRat 3 4] (mkRat 1 2)).map (·.1)) :=
  ⟨by decide, by decide, by decide,
    autotag_topk_complete [("cat", 0)] [mkRat 3 4] (mkRat 1 2) (mkRat 3 4) 0
      (by decide) (by decide) (by decide)⟩

/-- C8: for every image and every threshold, the dictionary returned by
`rrj.autotag` contains at most 250 entries: the result is drawn only from
the top `min(250, num_classes)` classes by score. -/
theorem autotag_length_le_250 (tags_data : List (String × ℤ)) (probits : List ℚ)
    (t : ℚ) : (RRJ.autotag tags_data probits t).length ≤ 250 := by
  have h := RRJ.filterLoop_length_le t (RRJ.allowed_tags tags_data)
    (RRJ.topk (min 250 RRJ.numClasses) probits) []
  have h2 : (RRJ.topk (min 250 RRJ.numClasses) probits).length ≤ 250 := by
    rw [RRJ.topk, List.length_take]
    have : min 250 RRJ.numClasses = 250 := by decide
    omega
  show (RRJ.filterLoop t (RRJ.allowed_tags tags_data)
    (RRJ.topk (min 250 RRJ.numClasses) probits) []).length ≤ 250
  simp only [List.length_nil] at h
  omega

/-- C10: every tag name appearing as a key in the result of `rrj.autotag` is
a nonempty string containing no underscore characters: underscores are
replaced by spaces when the vocabulary is processed at load time, and class
indices with no assigned name are skipped rather than emitted. -/
theorem autotag_keys_nonempty_no_underscore (tags_data : List (String × ℤ))
    (probits : List ℚ) (t : ℚ) :
    ∀ p ∈ RRJ.autotag tags_data probits t, p.1 ≠ "" ∧ '_' ∉ p.1.data := by
  intro p hp
  have horigin := RRJ.filterLoop_key_origin t (RRJ.allowed_tags tags_data)
    (RRJ.topk (min 250 RRJ.numClasses) probits) [] p hp
  rcases horigin with h | ⟨i, hne, heq⟩
  · simp at h
  · refine ⟨by rw [heq]; exact hne, ?_⟩
    rw [heq]
    have hP := RRJ.allowed_tags_pred (fun s => s = "" ∨ '_' ∉ s.data) tags_data
      (fun s => Or.inr (RRJ.pyReplaceUnderscore_no_underscore s)) (Or.inl rfl) i
    rcases hP with h' | h'
    · exact absurd h' hne
    · exact h'

namespace RRJ

/-- Modelled from the spec: the vocabulary file `tagger_tags.json` is
required at module load (rrj.py lines 151-161) but is not among the source
files; only the loading code is.  The spec describes the vocabulary as "an
ordered mapping from class index to tag string, loaded once from a JSON file
at process start; invariant: indices are dense and unique within
[0, num_classes)".  A decoded vocabulary is well formed when its tag labels
(after underscore processing) are distinct nonempty strings and its indices
enumerate [0, num_classes) without repetition. -/
def WellFormedVocab (tags_data : List (String × ℤ)) : Prop :=
  (tags_data.map (fun p => pyReplaceUnderscore p.1)).Nodup ∧
  (∀ p ∈ tags_data, pyReplaceUnderscore p.1 ≠ "") ∧
  ((tags_data.map (·.2)).Nodup) ∧
  (∀ p ∈ tags_data, 0 ≤ p.2 ∧ p.2 < (numClasses : ℤ)) ∧
  (∀ k : ℕ, k < numClasses → (k : ℤ) ∈ tags_data.map (·.2))

/-- A concrete well-formed vocabulary: class `i` is named by the string of
`i + 1` letters `a`. -/
def specVocab : List (String × ℤ) :=
  (List.range numClasses).map
    (fun i => (String.mk (List.replicate (i + 1) 'a'), (i : ℤ)))

theorem pyReplaceUnderscore_replicate_a (m : ℕ) :
    pyReplaceUnderscore (String.mk (List.replicate m 'a')) =
      String.mk (List.replicate m 'a') := by
  show String.mk ((List.replicate m 'a').map (fun c => if c = '_' then ' ' else c)) =
    String.mk (List.replicate m 'a')
  rw [List.map_replicate]
  rfl

theorem specVocab_wf : WellFormedVocab specVocab := by
  refine ⟨?_, ?_, ?_, ?_, ?_⟩
  · rw [specVocab, List.map_map]
    have hpt : ((fun p : String × ℤ => pyReplaceUnderscore p.1) ∘
        fun i : ℕ => (String.mk (List.replicate (i + 1) 'a'), (i : ℤ))) =
        fun i : ℕ => String.mk (List.replicate (i + 1) 'a') := by
      funext i
      exact pyReplaceUnderscore_replicate_a (i + 1)
    rw [hpt]
    refine List.Nodup.map ?_ (List.nodup_range _)
    intro i j hij
    have h2 : List.replicate (i + 1) 'a' = List.replicate (j + 1) 'a' :=
      congrArg String.data hij
    have h3 := congrArg List.length h2
    simp only [List.length_replicate] at h3
    omega
  · intro p hp
    obtain ⟨i, _, hpi⟩ := List.mem_map.mp hp
    rw [← hpi]
    rw [pyReplaceUnderscore_replicate_a]
    intro hc
    have h2 : List.replicate (i + 1) 'a' = ("" : String).data :=
      congrArg String.data hc
    have h3 := congrArg List.length h2
    have h4 : ("" : String).data.length = 0 := rfl
    simp only [List.length_replicate, h4] at h3
    omega
  · rw [specVocab, List.map_map]
    have hpt : ((fun p : String × ℤ => p.2) ∘
        fun i : ℕ => (String.mk (List.replicate (i + 1) 'a'), (i : ℤ))) =
        fun i : ℕ => (i : ℤ) := rfl
    rw [hpt]
    exact List.Nodup.map (fun a b h => by omega) (List.nodup_range _)
  · intro p hp
    obtain ⟨i, hi, hpi⟩ := List.mem_map.mp hp
    have hi' := List.mem_range.mp hi
    rw [← hpi]
    constructor
    · exact Int.natCast_nonneg i
    · show (i : ℤ) < (numClasses : ℤ)
      omega
  · intro k hk
    rw [specVocab, List.map_map]
    refine List.mem_map.mpr ⟨k, List.mem_range.mpr hk, rfl⟩

end RRJ

/-- C5: after the tag vocabulary is loaded at process start, the
`allowed_tags` list assigns every class index in `[0, num_classes)` exactly
one tag name: the list has exactly `num_classes` slots, every slot carries a
nonempty name (dense), and no two distinct indices carry the same name
(unique).  The vocabulary file is not in the sources, so its decoded content
is modelled from the spec by `WellFormedVocab`.  (`allowed_tags` is a
module-level constant read-only after load; the embedding makes it a pure
function of the file's content.) -/
theorem allowed_tags_dense_unique (tags_data : List (String × ℤ))
    (h : RRJ.WellFormedVocab tags_data) :
    (RRJ.allowed_tags tags_data).length = RRJ.numClasses ∧
    (∀ i : ℕ, i < RRJ.numClasses → (RRJ.allowed_tags tags_data).getD i "" ≠ "") ∧
    (∀ i j : ℕ, i < RRJ.numClasses → j < RRJ.numClasses →
      (RRJ.allowed_tags tags_data).getD i "" = (RRJ.allowed_tags tags_data).getD j "" →
      i = j) := by
  obtain ⟨hnames, hnonempty, hidx, hrange, hdense⟩ := h
  have hptm := RRJ.processed_tags_map_eq tags_data hnames
  have hsnd : ((tags_data.map (fun p => (RRJ.pyReplaceUnderscore p.1, p.2))).map
      (·.2)) = tags_data.map (·.2) := by
    rw [List.map_map]
    rfl
  have hdensity : ∀ i : ℕ, i < RRJ.numClasses →
      (RRJ.allowed_tags tags_data).getD i "" ≠ "" := by
    intro i hi
    obtain ⟨q, hq, hq2⟩ := List.mem_map.mp (hdense i hi)
    have hmem : (RRJ.pyReplaceUnderscore q.1, q.2) ∈
        tags_data.map (fun p => (RRJ.pyReplaceUnderscore p.1, p.2)) :=
      List.mem_map_of_mem _ hq
    have hassigned := RRJ.allowed_fold_assigned
      (tags_data.map (fun p => (RRJ.pyReplaceUnderscore p.1, p.2)))
      (List.replicate RRJ.numClasses "")
      (by rw [hsnd]; exact hidx)
      (by
        intro r hr
        obtain ⟨s, hs, hsr⟩ := List.mem_map.mp hr
        rw [← hsr]
        exact hrange s hs)
      (by intro r _; exact RRJ.getD_replicate_self "" _ _)
      (List.length_replicate _ _)
      (RRJ.pyReplaceUnderscore q.1, q.2) hmem
    have htoNat : (RRJ.pyReplaceUnderscore q.1, q.2).2.toNat = i := by
      show q.2.toNat = i
      omega
    rw [htoNat] at hassigned
    rw [RRJ.allowed_tags, hptm, RRJ.allowed_tags_of, hassigned]
    exact hnonempty q hq
  refine ⟨?_, hdensity, ?_⟩
  · rw [RRJ.allowed_tags, RRJ.allowed_tags_of, RRJ.allowed_fold_length,
      List.length_replicate]
  · intro i j hi _ heq
    exact RRJ.allowed_tags_inj tags_data i j (hdensity i hi) heq

theorem allowed_tags_dense_unique_witness :
    RRJ.WellFormedVocab RRJ.specVocab ∧
    (RRJ.allowed_tags RRJ.specVocab).length = RRJ.numClasses ∧
    (RRJ.allowed_tags RRJ.specVocab).getD 0 "" ≠ "" :=
  ⟨RRJ.specVocab_wf,
    (allowed_tags_dense_unique RRJ.specVocab RRJ.specVocab_wf).1,
    (allowed_tags_dense_unique RRJ.specVocab RRJ.specVocab_wf).2.1 0 (by decide)⟩

theorem autotag_keys_nonempty_no_underscore_witness :
    ("c at" ≠ "" ∧ '_' ∉ "c at".data) :=
  autotag_keys_nonempty_no_underscore [("c_at", 0)] [mkRat 3 4] (mkRat 1 2)
    ("c at", mkRat 3 4) (by decide)

namespace WDV3

/-- Whitespace for Python's `str.strip()` and the regex class `\s`: space,
tab, newline, carriage return, vertical tab, form feed. -/
def pyIsSpace (c : Char) : Bool :=
  c == ' ' || c == '\t' || c == '\n' || c == '\r' || c == '\x0b' || c == '\x0c'

/-- Match of the literal `Tags:` at the head of the character list with
`re.IGNORECASE` (ASCII casing); returns the characters after the match. -/
def matchTagsAt : List Char → Option (List Char)
  | t :: a :: g :: s :: c :: rest =>
    if (t == 'T' || t == 't') && (a == 'A' || a == 'a') && (g == 'G' || g == 'g')
        && (s == 'S' || s == 's') && (c == ':') then some rest
    else none
  | _ => none

/-- The search `re.search(r"Tags:\s*(.*)", script_output, re.IGNORECASE)` (api.py line
157): the tail `\s*(.*)` of the regex always matches (both parts may be
empty), so the search succeeds exactly at the first (leftmost)
case-insensitive occurrence of `Tags:`; this returns the characters
following that occurrence, or `none` when there is no occurrence. -/
def searchTags : List Char → Option (List Char)
  | [] => none
  | c :: rest =>
    match matchTagsAt (c :: rest) with
    | some r => some r
    | none => searchTags rest

/-- The capture `match.group(1)`: the class `\s*` greedily consumes whitespace (newlines
included), then `(.*)` captures greedily up to the next newline, since `.`
does not match `\n` without DOTALL. -/
def captureAfterTags (rest : List Char) : List Char :=
  (rest.dropWhile pyIsSpace).takeWhile (fun c => !(c == '\n'))

/-- Python `str.split(',')`. -/
def splitComma : List Char → List (List Char)
  | [] => [[]]
  | c :: rest =>
    match splitComma rest with
    | [] => if c == ',' then [[], []] else [[c]]
    | h :: tl => if c == ',' then [] :: h :: tl else (c :: h) :: tl

/-- Python `str.strip()`: drop leading and trailing whitespace. -/
def pyStrip (l : List Char) : List Char :=
  ((l.dropWhile pyIsSpace).reverse.dropWhile pyIsSpace).reverse

/-- The tag extraction of the WDv3 endpoint (api.py lines 157-161):
`[tag.strip() for tag in match.group(1).split(',') if tag.strip()]` on a
successful regex search, `none` otherwise (the endpoint then raises a 500
HTTPException). -/
def wdv3ExtractTags (s : List Char) : Option (List (List Char)) :=
  match searchTags s with
  | none => none
  | some rest =>
    some ((splitComma (captureAfterTags rest)).foldr
      (fun tag acc => if pyStrip tag ≠ [] then pyStrip tag :: acc else acc) [])

/-- The claim's applicability condition: the stdout contains a
case-insensitive `Tags:` marker, so the regex search succeeds. -/
def hasTagsMarker (s : List Char) : Bool :=
  (searchTags s).isSome

/-- The tag list as the specification sentence describes it: the
comma-separated items following the first case-insensitive `Tags:` match
(the regex capture: whitespace skipped, then the rest of that line), each
item stripped of surrounding whitespace, empty items removed, in the order
the script emitted them. -/
def specTagsList (s : List Char) : List (List Char) :=
  match searchTags s with
  | none => []
  | some rest =>
    ((splitComma (captureAfterTags rest)).map pyStrip).filter
      (fun tag => !tag.isEmpty)

example : wdv3ExtractTags "blah\ntags:  cat , , dog\nmore".data =
    some ["cat".data, "dog".data] := by decide

example : wdv3ExtractTags "Tags:\n cat".data = some ["cat".data] := by decide

example : wdv3ExtractTags "no marker".data = none := by decide

theorem comprehension_eq_filter_map (l : List (List Char)) :
    (l.foldr (fun tag acc => if pyStrip tag ≠ [] then pyStrip tag :: acc else acc)
      ([] : List (List Char))) =
    ((l.map pyStrip).filter (fun tag => !tag.isEmpty)) := by
  induction l with
  | nil => rfl
  | cons t rest ih =>
    rw [List.foldr_cons, List.map_cons, List.filter_cons]
    by_cases h : pyStrip t = []
    · rw [if_neg (not_not_intro h), ih, if_neg (by rw [h]; simp)]
    · rw [if_pos h, ih, if_pos (by
        cases hc : pyStrip t with
        | nil => exact absurd hc h
        | cons a l => simp)]

end WDV3

/-- C3: for every stdout string produced by the WDv3 script that contains a
case-insensitive `Tags:` marker, the endpoint's returned tag list equals the
comma-separated items following the first match, each stripped of
surrounding whitespace, with empty items removed, in the order the script
emitted them. -/
theorem wdv3_tags_parse_spec (s : List Char) (h : WDV3.hasTagsMarker s = true) :
    WDV3.wdv3ExtractTags s = some (WDV3.specTagsList s) := by
  rw [WDV3.hasTagsMarker, Option.isSome_iff_exists] at h
  obtain ⟨r, hr⟩ := h
  simp only [WDV3.wdv3ExtractTags, WDV3.specTagsList, hr]
  exact congrArg some (WDV3.comprehension_eq_filter_map _)

theorem wdv3_tags_parse_spec_witness :
    WDV3.hasTagsMarker "Tags: a, b".data = true ∧
    WDV3.wdv3ExtractTags "Tags: a, b".data =
      some (WDV3.specTagsList "Tags: a, b".data) :=
  ⟨by decide, wdv3_tags_parse_spec "Tags: a, b".data (by decide)⟩

namespace API

/-- Python exception classes distinguished by the endpoints' handlers. -/
inductive PyExc
  | typeError
  | runtimeError
  | fileNotFound
  | other
deriving DecidableEq

/-- Status mapping of the RRJ endpoint's handler chain (api.py lines
214-227): FileNotFoundError 500, RuntimeError 500, TypeError 400, any other
exception 500. -/
def rrjExcStatus : PyExc → ℕ
  | .fileNotFound => 500
  | .runtimeError => 500
  | .typeError => 400
  | .other => 500

/-- Observable steps of the RRJ endpoint's request handling. -/
inductive RRJStep
  | readImage
  | openImage
  | invokeTagger
deriving DecidableEq

/-- The endpoint `/autotag/redrocket-joint-tagger` (api.py lines 185-227)
as a step function.  The availability guard
(`if not RRJ_TAGGER_AVAILABLE or rrj_autotag_func is None`) runs before
anything else; then the upload is read, decoded by `Image.open`, and passed
to the tagger, each effect being recorded in the trace.  The outcomes of the
three fallible steps are parameters; a raised exception is routed through
the handler chain `rrjExcStatus`. -/
def rrjEndpoint {β ι τ : Type} (available : Bool) (funcIsNone : Bool)
    (readRes : Except PyExc β) (openRes : β → Except PyExc ι)
    (tagFn : ι → Except PyExc τ) : (ℕ × Option τ) × List RRJStep :=
  if ¬ available ∨ funcIsNone then ((503, none), [])
  else
    match readRes with
    | .error e => ((rrjExcStatus e, none), [.readImage])
    | .ok bs =>
      match openRes bs with
      | .error e => ((rrjExcStatus e, none), [.readImage, .openImage])
      | .ok img =>
        match tagFn img with
        | .error e =>
          ((rrjExcStatus e, none), [.readImage, .openImage, .invokeTagger])
        | .ok tags => ((200, some tags), [.readImage, .openImage, .invokeTagger])

/-- Steps performed by `rrj.autotag` after its `isinstance` check. -/
inductive TagEffect
  | convertImage
  | applyTransform
  | runInference
deriving DecidableEq

/-- The entry behaviour of `rrj.autotag` (rrj.py lines 201-211): an
argument that is not a `PIL.Image.Image` (modelled as `none`) raises
`TypeError` before the RGBA conversion, the transform pipeline and the
forward pass; a PIL image is modelled by the per-class sigmoid scores
(`some probits`) its forward pass produces, and the call performs those
steps and returns the `autotag` result. -/
def autotagRun (tags_data : List (String × ℤ)) (input : Option (List ℚ))
    (threshold : ℚ) : Except PyExc (List (String × ℚ)) × List TagEffect :=
  match input with
  | none => (.error .typeError, [])
  | some probits =>
    (.ok (RRJ.autotag tags_data probits threshold),
      [.convertImage, .applyTransform, .runInference])

/-- Status mapping of the WDv3 endpoint's handler chain (api.py lines
165-174): FileNotFoundError 500, RuntimeError 500, any other exception 500
(this endpoint has no TypeError handler). -/
def wdv3ExcStatus : PyExc → ℕ
  | _ => 500

/-- The endpoint `/autotag/wd-vit-tagger-v3` (api.py lines 145-181) as a
step function.  `readOk` and `openOk` are the outcomes of reading the
upload and of `Image.open`; `saveOk` is the outcome of `pil_image.save`
into the `NamedTemporaryFile(delete=False)`; `scriptRes` is the outcome of
the subprocess run; the regex parsing reuses `wdv3ExtractTags`.  The second
component of the result is the filesystem observation
`(temp file was created, temp file still on disk after the finally block)`:
the temp file is created when the `with` block is entered, `temp_file_path`
is assigned only after a successful save, and the `finally` block deletes
the file only when `temp_file_path` is assigned. -/
def wdv3Run (readOk : Bool) (openOk : Bool) (saveOk : Bool)
    (scriptRes : Except PyExc (List Char)) :
    (ℕ × Option (List (List Char))) × (Bool × Bool) :=
  if !readOk then ((500, none), (false, false))
  else if !openOk then ((500, none), (false, false))
  else if !saveOk then ((500, none), (true, true))
  else
    match scriptRes with
    | .error e => ((wdv3ExcStatus e, none), (true, false))
    | .ok out =>
      match WDV3.wdv3ExtractTags out with
      | some tags => ((200, some tags), (true, false))
      | none => ((500, none), (true, false))

/-- The temp file survives a request exactly when it was created but the
image save into it failed: on every other path, success or error, a created
file is deleted by the `finally` block. -/
theorem wdv3_temp_file_characterization (readOk openOk saveOk : Bool)
    (scriptRes : Except PyExc (List Char)) :
    (wdv3Run readOk openOk saveOk scriptRes).2.2 = true ↔
    ((wdv3Run readOk openOk saveOk scriptRes).2.1 = true ∧ saveOk = false) := by
  cases readOk <;> cases openOk <;> cases saveOk
  all_goals try simp [wdv3Run]
  cases scriptRes with
  | error e => simp [wdv3Run]
  | ok out => cases h : WDV3.wdv3ExtractTags out <;> simp [wdv3Run, h]

end API

/-- C4: whenever the RRJ tagger module failed to import or initialize
(`RRJ_TAGGER_AVAILABLE` is False), every request to
`/autotag/redrocket-joint-tagger` returns HTTP 503 with an empty effect
trace: the uploaded image is not read and no tagging function is invoked,
whatever the remaining request parameters are. -/
theorem rrj_endpoint_unavailable_503 {β ι τ : Type} (funcIsNone : Bool)
    (readRes : Except API.PyExc β) (openRes : β → Except API.PyExc ι)
    (tagFn : ι → Except API.PyExc τ) :
    API.rrjEndpoint false funcIsNone readRes openRes tagFn =
      ((503, none), []) := by
  cases funcIsNone <;> rfl

/-- C9: a non-PIL argument makes `rrj.autotag` raise `TypeError` with no
transformation or inference step performed, and the RRJ endpoint's handler
chain turns that `TypeError` into an HTTP 400 response. -/
theorem autotag_non_pil_type_error (tags_data : List (String × ℤ)) (t : ℚ) :
    API.autotagRun tags_data none t = (.error .typeError, []) ∧
    API.rrjEndpoint true false (Except.ok ()) (fun _ : Unit => Except.ok ())
      (fun _ : Unit => (API.autotagRun tags_data none t).1) =
      ((400, none), [.readImage, .openImage, .invokeTagger]) :=
  ⟨rfl, rfl⟩

/-- C6 (code evaluated at the failing input): when the upload is read and
decoded but `pil_image.save` raises inside the `with` block, the response
is a 500 and the created temp file is left on disk: `temp_file_path` is
still `None`, so the `finally` block's guard skips the deletion. -/
theorem wdv3_save_failure_leaves_file :
    API.wdv3Run true true false (Except.ok []) =
      ((500, none), (true, true)) := rfl

namespace RRJ

/-- Python's built-in `round`: round half to even. -/
def pyRound (q : ℚ) : ℤ :=
  if Int.fract q < 1 / 2 then ⌊q⌋
  else if 1 / 2 < Int.fract q then ⌊q⌋ + 1
  else if ⌊q⌋ % 2 = 0 then ⌊q⌋ else ⌊q⌋ + 1

/-- The method `Fit.forward` (rrj.py lines 46-73) at the level of image sizes, for the
instance `Fit((384, 384), pad=0.5)` used by the transform: `grow=True`, so
the `not self.grow` branch is skipped, and `pad` is not `None`, so the
padding branch runs.  `img.size` is `(width, height)`;
`hscale = hbound / himg` is evaluated first and raises `ZeroDivisionError`
on a zero height, then `wscale = wbound / wimg` on a zero width.  On the
near-unit scale the image is returned unresized.  Otherwise
`TF.resize(img, (hnew, wnew), ...)` is called: when a target dimension has
rounded to zero (an extreme aspect ratio: little side at most the big side
divided by 768), the underlying PIL resize raises
`ValueError("height and width must be > 0")`; else the image is resized to
`(wnew, hnew)` and padded on all four sides up to the bounds.  The result
is the `(width, height)` of the produced PIL image. -/
def fitForward (w h : ℕ) : Except String (ℕ × ℕ) :=
  if h = 0 then .error "ZeroDivisionError"
  else if w = 0 then .error "ZeroDivisionError"
  else
    let hscale : ℚ := 384 / (h : ℚ)
    let wscale : ℚ := 384 / (w : ℚ)
    let scale : ℚ := min hscale wscale
    if |scale - 1| < 1 / 1000000 then .ok (w, h)
    else
      let hnew : ℕ := min (pyRound ((h : ℚ) * scale)).toNat 384
      let wnew : ℕ := min (pyRound ((w : ℚ) * scale)).toNat 384
      if hnew = 0 ∨ wnew = 0 then .error "ValueError"
      else
        let hpad : ℕ := 384 - hnew
        let wpad : ℕ := 384 - wnew
        let tpad : ℕ := hpad / 2
        let bpad : ℕ := hpad - tpad
        let lpad : ℕ := wpad / 2
        let rpad : ℕ := wpad - lpad
        .ok (lpad + wnew + rpad, tpad + hnew + bpad)

/-- A rational above one half rounds (half to even) to at least one. -/
theorem one_le_pyRound (q : ℚ) (hq : 1 / 2 < q) : 1 ≤ pyRound q := by
  have hadd := Int.floor_add_fract q
  have hfr0 : 0 ≤ Int.fract q := Int.fract_nonneg q
  have hfr1 : Int.fract q < 1 := Int.fract_lt_one q
  rw [pyRound]
  split_ifs with h1 h2 h3
  · have h0 : (0 : ℚ) < (⌊q⌋ : ℚ) := by linarith
    have : 0 < ⌊q⌋ := by exact_mod_cast h0
    omega
  · have h0 : (-1 : ℚ) < (⌊q⌋ : ℚ) := by linarith
    have : (-1 : ℤ) < ⌊q⌋ := by exact_mod_cast h0
    omega
  · have hfr : Int.fract q = 1 / 2 := le_antisymm (not_lt.mp h2) (not_lt.mp h1)
    have h0 : (0 : ℚ) < (⌊q⌋ : ℚ) := by linarith
    have : 0 < ⌊q⌋ := by exact_mod_cast h0
    omega
  · have hfr : Int.fract q = 1 / 2 := le_antisymm (not_lt.mp h2) (not_lt.mp h1)
    have h0 : (0 : ℚ) < (⌊q⌋ : ℚ) := by linarith
    have : 0 < ⌊q⌋ := by exact_mod_cast h0
    omega

/-- The method `CompositeAlpha.forward` (rrj.py lines 100-111) at shape level: a
3-channel tensor passes through unchanged, a 4-channel tensor is composited
down to 3 channels with the same spatial size, any other channel count
raises `ValueError`. -/
def compositeAlphaShape (s : ℕ × ℕ × ℕ) : Except String (ℕ × ℕ × ℕ) :=
  if s.1 = 3 then .ok s
  else if s.1 = 4 then .ok (3, s.2.1, s.2.2)
  else .error "ValueError"

/-- The transform `transforms.Normalize(mean=[0.5]*3, std=[0.5]*3, inplace=True)` at
shape level: shape preserving; the three-element mean and std require a
3-channel input. -/
def normalizeShape (s : ℕ × ℕ × ℕ) : Except String (ℕ × ℕ × ℕ) :=
  if s.1 = 3 then .ok s else .error "RuntimeError"

/-- The transform `transforms.CenterCrop((384, 384))` at shape level: crops, and pads
with zeros when the input is smaller than the crop, so the spatial size is
always exactly `(384, 384)`. -/
def centerCropShape (s : ℕ × ℕ × ℕ) : ℕ × ℕ × ℕ := (s.1, 384, 384)

/-- The transform pipeline (rrj.py lines 121-127) as applied by `autotag`
to `image.convert('RGBA')` (lines 204-206), tracked at the level of tensor
shapes: the Fit output of size `(w2, h2)` becomes a `(4, h2, w2)` tensor
under `ToTensor` (the image is RGBA), then is alpha-composited to three
channels, normalized, and center-cropped. -/
def rrjPreprocessShape (w h : ℕ) : Except String (ℕ × ℕ × ℕ) :=
  match fitForward w h with
  | .error e => .error e
  | .ok (w2, h2) =>
    match compositeAlphaShape (4, h2, w2) with
    | .error e => .error e
    | .ok s2 =>
      match normalizeShape s2 with
      | .error e => .error e
      | .ok s3 => .ok (centerCropShape s3)

end RRJ

/-- C7 counterexample: a 0×0 PIL image (PIL permits zero-sized images)
falsifies the claim for "any width, height": `Fit.forward` raises
`ZeroDivisionError` at `hscale = hbound / himg`, so the pipeline produces
no tensor at all instead of a `(3, 384, 384)` one. -/
theorem rrj_preprocess_zero_size_cex :
    RRJ.rrjPreprocessShape 0 0 = Except.error "ZeroDivisionError" ∧
    RRJ.rrjPreprocessShape 0 0 ≠ Except.ok (3, 384, 384) := by
  refine ⟨rfl, ?_⟩
  intro hc
  rw [show RRJ.rrjPreprocessShape 0 0 = Except.error "ZeroDivisionError" from rfl]
    at hc
  exact Except.noConfusion hc

/-- Supporting evidence for the error path the pipeline model keeps: at an
aspect ratio of 769:1 (width 769, height 1), the height resize target
rounds to zero (`round(1 * 384/769) = round(0.499...) = 0`), so the resize
raises `ValueError` and the pipeline produces no tensor at all. -/
theorem rrj_preprocess_ratio_error :
    RRJ.rrjPreprocessShape 769 1 = Except.error "ValueError" := by
  have e1 : (((1 : ℕ)) : ℚ) = 1 := Nat.cast_one
  have hmin : min ((384 : ℚ) / (((1 : ℕ)) : ℚ)) ((384 : ℚ) / (((769 : ℕ)) : ℚ)) =
      384 / 769 := by
    have e769 : (((769 : ℕ)) : ℚ) = 769 := by norm_num
    rw [e1, e769, div_one]
    exact min_eq_right (by norm_num)
  have hs : ¬(|min ((384 : ℚ) / (((1 : ℕ)) : ℚ)) ((384 : ℚ) / (((769 : ℕ)) : ℚ)) - 1| <
      1 / 1000000) := by
    rw [hmin, abs_of_nonpos (by norm_num : (384 : ℚ) / 769 - 1 ≤ 0)]
    norm_num
  have hpr : RRJ.pyRound ((((1 : ℕ)) : ℚ) *
      min ((384 : ℚ) / (((1 : ℕ)) : ℚ)) ((384 : ℚ) / (((769 : ℕ)) : ℚ))) = 0 := by
    have hfr : Int.fract ((384 : ℚ) / 769) = 384 / 769 :=
      Int.fract_eq_self.mpr ⟨by norm_num, by norm_num⟩
    rw [hmin, e1, one_mul, RRJ.pyRound, if_pos (by rw [hfr]; norm_num)]
    exact Int.floor_eq_zero_iff.mpr ⟨by norm_num, by norm_num⟩
  have hfit : RRJ.fitForward 769 1 = Except.error "ValueError" := by
    rw [RRJ.fitForward, if_neg (by omega), if_neg (by omega), if_neg hs,
      if_pos (Or.inl (by rw [hpr]; decide))]
  unfold RRJ.rrjPreprocessShape
  rw [hfit]

/-- C7 (amended): for every input PIL image with positive width and height
whose aspect ratio stays below 768:1 (the larger side strictly less than
768 times the smaller), of any color mode, converting it to RGBA and
applying the RRJ preprocessing pipeline (Fit to `(384, 384)` with padding,
ToTensor, CompositeAlpha, Normalize, CenterCrop `(384, 384)`) yields a
tensor of shape exactly `(3, 384, 384)`.  (At a zero width or height the
Fit stage raises `ZeroDivisionError`; at a ratio of 768:1 or beyond the
smaller resize target rounds to zero — `384·min/max ≤ 1/2`, and Python's
half-to-even `round(0.5) = 0` — and the resize raises `ValueError`.) -/
theorem rrj_preprocess_shape (w h : ℕ) (hw : 0 < w) (hh : 0 < h)
    (hratio : max w h < 768 * min w h) :
    RRJ.rrjPreprocessShape w h = Except.ok (3, 384, 384) := by
  have hwq : (0 : ℚ) < (w : ℚ) := by exact_mod_cast hw
  have hhq : (0 : ℚ) < (h : ℚ) := by exact_mod_cast hh
  have hw768 : (w : ℚ) < 768 * (h : ℚ) := by
    exact_mod_cast (show w < 768 * h by omega)
  have hh768 : (h : ℚ) < 768 * (w : ℚ) := by
    exact_mod_cast (show h < 768 * w by omega)
  -- both resize targets stay above one half, hence round to at least one
  have hhalf_h : (1 : ℚ) / 2 < (h : ℚ) * min ((384 : ℚ) / (h : ℚ)) ((384 : ℚ) / (w : ℚ)) := by
    have hb1 : (1 : ℚ) / (2 * (h : ℚ)) < (384 : ℚ) / (h : ℚ) := by
      rw [div_lt_div_iff₀ (by positivity) hhq]
      nlinarith
    have hb2 : (1 : ℚ) / (2 * (h : ℚ)) < (384 : ℚ) / (w : ℚ) := by
      rw [div_lt_div_iff₀ (by positivity) hwq]
      nlinarith
    have hmul := mul_lt_mul_of_pos_left (lt_min hb1 hb2) hhq
    have heq : (h : ℚ) * ((1 : ℚ) / (2 * (h : ℚ))) = 1 / 2 := by
      field_simp
      ring
    rw [heq] at hmul
    exact hmul
  have hhalf_w : (1 : ℚ) / 2 < (w : ℚ) * min ((384 : ℚ) / (h : ℚ)) ((384 : ℚ) / (w : ℚ)) := by
    have hb1 : (1 : ℚ) / (2 * (w : ℚ)) < (384 : ℚ) / (h : ℚ) := by
      rw [div_lt_div_iff₀ (by positivity) hhq]
      nlinarith
    have hb2 : (1 : ℚ) / (2 * (w : ℚ)) < (384 : ℚ) / (w : ℚ) := by
      rw [div_lt_div_iff₀ (by positivity) hwq]
      nlinarith
    have hmul := mul_lt_mul_of_pos_left (lt_min hb1 hb2) hwq
    have heq : (w : ℚ) * ((1 : ℚ) / (2 * (w : ℚ))) = 1 / 2 := by
      field_simp
      ring
    rw [heq] at hmul
    exact hmul
  have hnew_pos : 1 ≤ (RRJ.pyRound ((h : ℚ) *
      min ((384 : ℚ) / (h : ℚ)) ((384 : ℚ) / (w : ℚ)))).toNat := by
    have := RRJ.one_le_pyRound _ hhalf_h
    omega
  have wnew_pos : 1 ≤ (RRJ.pyRound ((w : ℚ) *
      min ((384 : ℚ) / (h : ℚ)) ((384 : ℚ) / (w : ℚ)))).toNat := by
    have := RRJ.one_le_pyRound _ hhalf_w
    omega
  have hfit : ∃ p : ℕ × ℕ, RRJ.fitForward w h = Except.ok p := by
    rw [RRJ.fitForward, if_neg (by omega), if_neg (by omega)]
    by_cases hs : |min ((384 : ℚ) / (h : ℚ)) ((384 : ℚ) / (w : ℚ)) - 1| <
        1 / 1000000
    · exact ⟨(w, h), by rw [if_pos hs]⟩
    · have hcond : ¬(min (RRJ.pyRound ((h : ℚ) *
          min ((384 : ℚ) / (h : ℚ)) ((384 : ℚ) / (w : ℚ)))).toNat 384 = 0 ∨
          min (RRJ.pyRound ((w : ℚ) *
          min ((384 : ℚ) / (h : ℚ)) ((384 : ℚ) / (w : ℚ)))).toNat 384 = 0) := by
        omega
      exact ⟨_, by rw [if_neg hs, if_neg hcond]⟩
  obtain ⟨⟨w2, h2⟩, hp⟩ := hfit
  unfold RRJ.rrjPreprocessShape
  rw [hp]
  rfl

theorem rrj_preprocess_shape_witness :
    0 < 640 ∧ 0 < 480 ∧ max 640 480 < 768 * min 640 480 ∧
    RRJ.rrjPreprocessShape 640 480 = Except.ok (3, 384, 384) :=
  ⟨by decide, by decide, by decide,
    rrj_preprocess_shape 640 480 (by decide) (by decide) (by decide)⟩
